import Mathlib

/-!
Verification development for the image-descriptor extension core:
the position-addressed `<img>` tag locator, the `src`/`alt` attribute
extractors, the local-image source resolver, and the in-place `alt`
rewriter.  The definitions below are a shallow embedding of the
TypeScript source (`findImgElementAtPosition`, `extractAltText`,
`extractSrcAttribute`, `prepareImageData`, `insertAltText`); document
text is modelled as `String` (a list of characters addressed by
zero-based offsets), the filesystem as an explicit `String → Option
(List Nat)` map from paths to byte lists, and the JavaScript regular
expressions used by the source are translated to executable matching
functions with the same first-match, greedy, case-insensitive
semantics.
-/

namespace ImageDescriptor

/-- The double-quote character `"`. -/
def dq : Char := Char.ofNat 34

/-- The single-quote character. -/
def sq : Char := Char.ofNat 39

/-- JavaScript `\s` whitespace class (as used by the attribute regexes),
expressed on code points. -/
def isWs (c : Char) : Bool :=
  c.toNat = 32 || c.toNat = 9 || c.toNat = 10 || c.toNat = 11 || c.toNat = 12 ||
  c.toNat = 13 || c.toNat = 160 || c.toNat = 5760 ||
  (8192 ≤ c.toNat && c.toNat ≤ 8202) || c.toNat = 8232 || c.toNat = 8233 ||
  c.toNat = 8239 || c.toNat = 8287 || c.toNat = 12288 || c.toNat = 65279

/-- The regex class `["']`: a double or single quote. -/
def isQuote (c : Char) : Bool := c.toNat = 34 || c.toNat = 39

/-- Case-insensitive match of input character `c` against a pattern
character `p` under the JavaScript `i` flag (the patterns here use only
ASCII lowercase letters and punctuation, for which canonicalisation is
exactly "same character, or the ASCII uppercase of an ASCII lowercase
pattern letter"). -/
def charCI (p c : Char) : Bool :=
  c.toNat = p.toNat || (97 ≤ p.toNat && p.toNat ≤ 122 && c.toNat + 32 = p.toNat)

/-- Match a literal pattern case-insensitively as a prefix, returning
the remaining input. -/
def stripCI : List Char → List Char → Option (List Char)
  | [], l => some l
  | _ :: _, [] => none
  | p :: ps, c :: cs => if charCI p c then stripCI ps cs else none

/-- Greedy match of `\s*=` : leading whitespace then an equals sign.
Returns the number of consumed characters and the rest of the input.
Greedy matching of `\s*` is deterministic here because backtracking a
whitespace run can never expose an `=`. -/
def matchWsEq : List Char → Option (Nat × List Char)
  | [] => none
  | c :: r =>
    if isWs c then (matchWsEq r).map (fun p => (p.1 + 1, p.2))
    else if c.toNat = 61 then some (1, r)
    else none

/-- Greedy match of `\s*["']` : leading whitespace then an opening quote. -/
def matchWsQuote : List Char → Option (Nat × List Char)
  | [] => none
  | c :: r =>
    if isWs c then (matchWsQuote r).map (fun p => (p.1 + 1, p.2))
    else if isQuote c then some (1, r)
    else none

/-- Greedy match of `[^"']*["']` : the attribute value (characters up to
the first quote) followed by a closing quote.  Returns the number of
consumed characters and the captured value.  Fails exactly when the
input contains no quote at all. -/
def matchValueClose : List Char → Option (Nat × List Char)
  | [] => none
  | c :: r =>
    if isQuote c then some (1, [])
    else (matchValueClose r).map (fun p => (p.1 + 1, c :: p.2))

/-- The attribute-name pattern `alt`. -/
def altName : List Char := ['a', 'l', 't']

/-- The attribute-name pattern `src`. -/
def srcName : List Char := ['s', 'r', 'c']

/-- Attempt to match `name\s*=\s*["']([^"']*)["']` (with `allowEmpty =
true`, as in the `alt` regex) or `name\s*=\s*["']([^"']+)["']` (with
`allowEmpty = false`, as in the `src` regex) at the very start of `l`,
case-insensitively.  Returns the total match length and the captured
value. -/
def matchAttrAt (name : List Char) (allowEmpty : Bool) (l : List Char) :
    Option (Nat × List Char) :=
  match stripCI name l with
  | none => none
  | some r1 =>
    match matchWsEq r1 with
    | none => none
    | some (n2, r2) =>
      match matchWsQuote r2 with
      | none => none
      | some (n3, r3) =>
        match matchValueClose r3 with
        | none => none
        | some (n4, v) =>
          if allowEmpty || !v.isEmpty then some (name.length + n2 + n3 + n4, v)
          else none

/-- First (leftmost) match of the attribute pattern in `l`, as a triple
`(start, length, capturedValue)` — the semantics of a non-global
JavaScript regex match. -/
def findAttr (name : List Char) (allowEmpty : Bool) : List Char → Option (Nat × Nat × List Char)
  | [] => none
  | c :: t =>
    match matchAttrAt name allowEmpty (c :: t) with
    | some (n, v) => some (0, n, v)
    | none => (findAttr name allowEmpty t).map (fun p => (p.1 + 1, p.2))

/-- `extractAltText` from the source: match `/alt\s*=\s*["']([^"']*)["']/i`
against the tag text and return the first capture group, or `null`. -/
def extractAltText (imgElement : String) : Option String :=
  (findAttr altName true imgElement.data).map (fun p => String.mk p.2.2)

/-- `extractSrcAttribute` from the source: match
`/src\s*=\s*["']([^"']+)["']/i` against the tag text and return the
first capture group, or `null`. -/
def extractSrcAttribute (imgElement : String) : Option String :=
  (findAttr srcName false imgElement.data).map (fun p => String.mk p.2.2)

/-- The test made by the `translateAltText` command handler right after
extraction: `if (!altText) { ... return; }`.  In JavaScript both `null`
and the empty string are falsy, so the guard fires (and the flow aborts
with "No alt text found for the img element") when the result is `none`
or `some ""`. -/
def translateAltMissingCheck (extracted : Option String) : Bool :=
  match extracted with
  | none => true
  | some s => s.data.isEmpty

/-- The tag pattern prefix `<img`. -/
def imgPat : List Char := ['<', 'i', 'm', 'g']

/-- Attempt to match `<img[^>]*>` (case-insensitively) at the very start
of `l`; returns the match length.  The greedy `[^>]*` runs to the first
`>`, which must exist. -/
def matchImgAt (l : List Char) : Option Nat :=
  match stripCI imgPat l with
  | none => none
  | some r =>
    match r.dropWhile (fun c => c.toNat != 62) with
    | [] => none
    | _ :: _ => some (4 + (r.takeWhile (fun c => c.toNat != 62)).length + 1)

/-- All matches of the global regex `/<img[^>]*>/gi` over `l`, with
`pos` the absolute offset of the head of `l`: the leftmost match is
taken, and the scan resumes right after it (`lastIndex` semantics of
`RegExp.exec` with the `g` flag); `skip` counts positions still covered
by the previous match, at which no new match may start.  Entries are
`(startOffset, matched characters)`. -/
def scanFrom : List Char → Nat → Nat → List (Nat × List Char)
  | [], _, _ => []
  | _ :: t, pos, skip + 1 => scanFrom t (pos + 1) skip
  | c :: t, pos, 0 =>
    match matchImgAt (c :: t) with
    | some n => (pos, (c :: t).take n) :: scanFrom t (pos + 1) (n - 1)
    | none => scanFrom t (pos + 1) 0

/-- `findImgElementAtPosition` from the source: walk the global matches
of `/<img[^>]*>/gi` over the document text in order and return the text
of the first match whose inclusive range `[start, start + length]`
contains the offset (`offset >= startOffset && offset <= endOffset`),
or `null` when no match contains it. -/
def findImgElementAtPosition (text : String) (offset : Nat) : Option String :=
  ((scanFrom text.data 0 0).find?
      (fun e => decide (e.1 ≤ offset) && decide (offset ≤ e.1 + e.2.length))).map
    (fun e => String.mk e.2)

/-- Declarative description of a lexeme of the pattern `<img[^>]*>`:
a case-insensitive `<img` prefix, then characters none of which is `>`
(code point 62), then a final `>`.  This is stated independently of the
scanning functions, purely about character content. -/
def IsImgLex (m : List Char) : Prop :=
  ∃ c1 c2 c3 c4 body c5, m = c1 :: c2 :: c3 :: c4 :: (body ++ [c5]) ∧
    charCI '<' c1 = true ∧ charCI 'i' c2 = true ∧ charCI 'm' c3 = true ∧
    charCI 'g' c4 = true ∧ (∀ c ∈ body, c.toNat ≠ 62) ∧ c5.toNat = 62

/-- `m` occurs in `l` at offset `s` as an `<img ...>` lexeme. -/
def ImgMatchAt (l : List Char) (s : Nat) (m : List Char) : Prop :=
  IsImgLex m ∧ m <+: l.drop s

/-- JavaScript `String.prototype.indexOf`: offset of the first
occurrence of `needle` in the haystack, or `none`.  An empty needle is
found at offset `0`. -/
def strIndexOf (needle : List Char) : List Char → Option Nat
  | [] => if needle = [] then some 0 else none
  | c :: t =>
    if needle.isPrefixOf (c :: t) then some 0
    else (strIndexOf needle t).map (· + 1)

/-- ECMAScript `GetSubstitution` for a replacement template with zero
capture groups: in the template, `$$` yields `$`, `$&` yields the
matched text, a dollar followed by a backquote yields the portion of
the subject before the match, `$` followed by a single quote yields the
portion after the match, and any other `$` (including `$1`..`$9`, since
there are no capture groups) is kept literally. -/
def getSubstitution : List Char → List Char → List Char → List Char → List Char
  | [], _, _, _ => []
  | [c], _, _, _ => [c]
  | c :: d :: rest2, m, b, a =>
    if c.toNat = 36 then
      if d.toNat = 36 then d :: getSubstitution rest2 m b a
      else if d.toNat = 38 then m ++ getSubstitution rest2 m b a
      else if d.toNat = 96 then b ++ getSubstitution rest2 m b a
      else if d.toNat = 39 then a ++ getSubstitution rest2 m b a
      else c :: getSubstitution (d :: rest2) m b a
    else c :: getSubstitution (d :: rest2) m b a

/-- The replacement template `alt="${altText}"` used when an `alt`
attribute is already present. -/
def altReplacement (altText : String) : List Char :=
  'a' :: 'l' :: 't' :: '=' :: dq :: (altText.data ++ [dq])

/-- The replacement template ` alt="${altText}">` used when no `alt`
attribute is present (it replaces the trailing `>`). -/
def altAppendReplacement (altText : String) : List Char :=
  ' ' :: 'a' :: 'l' :: 't' :: '=' :: dq :: (altText.data ++ [dq, '>'])

/-- The new tag text computed by `insertAltText`:  if
`/alt\s*=\s*["'][^"']*["']/i` matches the tag (`hasAlt`), its first
match is replaced by the `alt="..."` template; otherwise `/>$/` — a `>`
at the very end of the tag — is replaced by ` alt="...">`.  JavaScript
`String.replace` with a string replacement performs `GetSubstitution`
on the template.  A tag that has no `alt` attribute and does not end in
`>` is returned unchanged (no regex matches). -/
def computeNewTag (imgElement altText : String) : String :=
  match findAttr altName true imgElement.data with
  | some (s, n, _) =>
    String.mk (imgElement.data.take s ++
      getSubstitution (altReplacement altText) ((imgElement.data.drop s).take n)
        (imgElement.data.take s) (imgElement.data.drop (s + n)) ++
      imgElement.data.drop (s + n))
  | none =>
    match imgElement.data.getLast? with
    | some c =>
      if c.toNat = 62 then
        String.mk (imgElement.data.dropLast ++
          getSubstitution (altAppendReplacement altText) ['>'] imgElement.data.dropLast [])
      else imgElement
    | none => imgElement

/-- The single text edit produced by `insertAltText`: the new tag text
plus the replacement range in the current document. -/
structure RewriteResult where
  newTagText : String
  start : Nat
  stop : Nat
deriving DecidableEq

/-- `insertAltText` from the source: re-locate the original tag text in
the current document text via `text.indexOf(imgElement)`; if absent,
fail ("Could not locate img element in document") producing no edit;
otherwise compute the new tag text and return it together with the
replacement range `[imgIndex, imgIndex + imgElement.length)`. -/
def insertAltText (text imgElement altText : String) : Option RewriteResult :=
  match strIndexOf imgElement.data text.data with
  | none => none
  | some i => some ⟨computeNewTag imgElement altText, i, i + imgElement.data.length⟩

/-- Apply a rewrite result to the document text: replace the range
`[start, stop)` with the new tag text (the external
`WorkspaceEdit.replace`, assumed atomic). -/
def applyRewrite (text : String) (r : RewriteResult) : String :=
  String.mk (text.data.take r.start ++ r.newTagText.data ++ text.data.drop r.stop)

/-- Apply an optional edit: a failed rewrite leaves the document
unchanged. -/
def applyEdit (text : String) : Option RewriteResult → String
  | none => text
  | some r => applyRewrite text r

/-- An "open alt fragment": `alt\s*=\s*["']` matching at the start of
`l` with no requirement that the value ever closes.  Used to state when
a tag contains a dangling, unterminated `alt` attribute opener. -/
def matchAltOpen (l : List Char) : Option (List Char) :=
  match stripCI altName l with
  | none => none
  | some r1 =>
    match matchWsEq r1 with
    | none => none
    | some (_, r2) =>
      match matchWsQuote r2 with
      | none => none
      | some (_, r3) => some r3

/-- Node `path.basename` restricted to POSIX separators: the part of
the path after the last `/`. -/
def pathBasename (p : String) : String :=
  String.mk ((p.data.reverse.takeWhile (fun c => c.toNat != 47)).reverse)

/-- Node `path.extname` (POSIX): the substring of the basename from its
last `.`, or `""` when the basename has no dot or only a leading dot. -/
def pathExtname (p : String) : String :=
  let b := (pathBasename p).data
  let rev := b.reverse
  let afterDotRev := rev.takeWhile (fun c => c.toNat != 46)
  if afterDotRev.length = rev.length then ""
  else if afterDotRev.length + 1 = rev.length then ""
  else String.mk (Char.ofNat 46 :: afterDotRev.reverse)

/-- Node `path.dirname` (POSIX) on plain paths: everything before the
last `/`, with `"."` for separator-free paths and `"/"` for a file at
the root. -/
def pathDirname (p : String) : String :=
  let l := p.data
  let afterSlashRev := l.reverse.takeWhile (fun c => c.toNat != 47)
  if afterSlashRev.length = l.length then "."
  else
    let dir := l.take (l.length - afterSlashRev.length - 1)
    if dir = [] then "/" else String.mk dir

/-- Collapse runs of `/` into a single `/` (the separator normalisation
performed by `path.join`); `prevSlash` records whether the previous
kept character was a `/`. -/
def collapseSlashesAux : Bool → List Char → List Char
  | _, [] => []
  | prevSlash, c :: rest =>
    if c.toNat = 47 then
      if prevSlash then collapseSlashesAux true rest
      else c :: collapseSlashesAux true rest
    else c :: collapseSlashesAux false rest

/-- Collapse runs of `/` into a single `/`. -/
def collapseSlashes (l : List Char) : List Char := collapseSlashesAux false l

/-- Node `path.join(a, b)` (POSIX) on dot-free segments: concatenate
with a `/` separator and collapse duplicate separators. -/
def pathJoin (a b : String) : String :=
  String.mk (collapseSlashes (a.data ++ Char.ofNat 47 :: b.data))

/-- Error outcomes of `prepareImageData`: the thrown "No workspace
folder found" error, and a failed `fs.readFileSync` on the resolved
path. -/
inductive ResolveError where
  | noWorkspace : ResolveError
  | fileRead : String → ResolveError
deriving DecidableEq

/-- JavaScript `String.prototype.startsWith` on character sequences. -/
def strStartsWith (s pre : String) : Bool := pre.data.isPrefixOf s.data

/-- The absolute-URL test at the top of `prepareImageData`. -/
def isHttpSrc (src : String) : Bool :=
  strStartsWith src "http://" || strStartsWith src "https://"

/-- Path resolution for a non-URL `src` once a workspace root is known:
a leading `/` resolves against the workspace root, anything else
against the directory of the current document. -/
def resolvedPath (src documentPath workspaceRoot : String) : String :=
  if strStartsWith src "/" then pathJoin workspaceRoot src
  else pathJoin (pathDirname documentPath) src

/-- The fixed MIME table of `prepareImageData`, keyed by the lowercased
file extension; every extension outside the table defaults to
`image/jpeg`. -/
def getMimeType (ext : String) : String :=
  if ext = ".png" then "image/png"
  else if ext = ".gif" then "image/gif"
  else if ext = ".webp" then "image/webp"
  else if ext = ".svg" then "image/svg+xml"
  else "image/jpeg"

/-- The base64 alphabet character for a 6-bit group. -/
def b64Char (n : Nat) : Char :=
  "ABCDEFGHIJKLMNOPQRSTUVWXYZabcdefghijklmnopqrstuvwxyz0123456789+/".data.getD n 'A'

/-- Standard base64 of a byte list (the behaviour of Node
`Buffer.toString("base64")`), three bytes at a time with `=` padding;
bytes are naturals taken mod 256. -/
def base64Chunks : List Nat → List Char
  | [] => []
  | [b1] =>
    let n := (b1 % 256) * 16
    b64Char (n / 64) :: b64Char (n % 64) :: '=' :: '=' :: []
  | [b1, b2] =>
    let n := ((b1 % 256) * 256 + (b2 % 256)) * 4
    b64Char (n / 4096) :: b64Char (n / 64 % 64) :: b64Char (n % 64) :: '=' :: []
  | b1 :: b2 :: b3 :: rest =>
    let n := (b1 % 256) * 65536 + (b2 % 256) * 256 + (b3 % 256)
    b64Char (n / 262144) :: b64Char (n / 4096 % 64) :: b64Char (n / 64 % 64) ::
      b64Char (n % 64) :: base64Chunks rest

/-- `imageBuffer.toString("base64")` as a string. -/
def base64Encode (bytes : List Nat) : String := String.mk (base64Chunks bytes)

/-- JavaScript `String.prototype.toLowerCase` restricted to ASCII (the
only characters case-mapped in the file extensions considered here). -/
def strToLower (s : String) : String := String.mk (s.data.map Char.toLower)

/-- The `data:<mime>;base64,<payload>` string built from the resolved
path's extension and file bytes. -/
def dataUriFor (fullPath : String) (bytes : List Nat) : String :=
  "data:" ++ getMimeType (strToLower (pathExtname fullPath)) ++ ";base64," ++ base64Encode bytes

/-- `prepareImageData` from the source.  `fs` is the filesystem
boundary: the bytes of each readable path.  An `http://` or `https://`
`src` is returned unchanged; otherwise the function first requires a
workspace root (throwing "No workspace folder found" when there is
none, regardless of the shape of `src`), resolves the path, reads it,
and produces a base64 data URI. -/
def prepareImageData (src documentPath : String) (workspaceRoot : Option String)
    (fs : String → Option (List Nat)) : Except ResolveError String :=
  if isHttpSrc src then Except.ok src
  else
    match workspaceRoot with
    | none => Except.error ResolveError.noWorkspace
    | some ws =>
      let fullPath := resolvedPath src documentPath ws
      match fs fullPath with
      | none => Except.error (ResolveError.fileRead fullPath)
      | some bytes => Except.ok (dataUriFor fullPath bytes)

/-! ### General lemmas about the embedded operations -/

theorem strIndexOf_some {nd hay : List Char} {i : Nat} (h : strIndexOf nd hay = some i) :
    nd <+: hay.drop i ∧ ∀ j, j < i → ¬ nd <+: hay.drop j := by
  induction hay generalizing i with
  | nil =>
    by_cases hn : nd = ([] : List Char)
    · simp [strIndexOf, hn] at h
      subst hn
      simp [← h]
    · simp [strIndexOf, hn] at h
  | cons c t ih =>
    by_cases hp : nd.isPrefixOf (c :: t)
    · simp [strIndexOf, hp] at h
      subst h
      refine ⟨?_, by omega⟩
      simp only [List.drop_zero]
      exact (List.isPrefixOf_iff_prefix).mp hp
    · simp [strIndexOf, hp] at h
      obtain ⟨i', hi', rfl⟩ := h
      obtain ⟨h1, h2⟩ := ih hi'
      refine ⟨h1, ?_⟩
      intro j hj
      cases j with
      | zero =>
        simpa using fun hpre => hp ((List.isPrefixOf_iff_prefix).mpr hpre)
      | succ j' => exact h2 j' (by omega)

theorem infix_iff_drop {nd hay : List Char} : nd <:+: hay ↔ ∃ i, nd <+: hay.drop i := by
  constructor
  · rintro ⟨s, t, rfl⟩
    refine ⟨s.length, ?_⟩
    rw [List.append_assoc, List.drop_left]
    exact List.prefix_append nd t
  · rintro ⟨i, h⟩
    exact h.isInfix.trans (hay.drop_suffix i).isInfix

theorem strIndexOf_none_iff {nd hay : List Char} :
    strIndexOf nd hay = none ↔ ¬ nd <:+: hay := by
  induction hay with
  | nil =>
    by_cases hn : nd = ([] : List Char) <;> simp [strIndexOf, hn]
  | cons c t ih =>
    by_cases hp : nd.isPrefixOf (c :: t)
    · have : nd <:+: c :: t := ((List.isPrefixOf_iff_prefix).mp hp).isInfix
      simp [strIndexOf, hp, this]
    · have hnp : ¬ nd <+: c :: t := fun hpre => hp ((List.isPrefixOf_iff_prefix).mpr hpre)
      have hp' : nd.isPrefixOf (c :: t) = false := by rw [Bool.eq_false_iff]; exact hp
      simp only [strIndexOf, hp', Bool.false_eq_true, if_false, Option.map_eq_none',
        ih, List.infix_cons_iff]
      tauto

theorem strIndexOf_of_infix {nd hay : List Char} (h : nd <:+: hay) :
    ∃ i, strIndexOf nd hay = some i := by
  cases hi : strIndexOf nd hay with
  | none => exact absurd h (strIndexOf_none_iff.mp hi)
  | some i => exact ⟨i, rfl⟩

theorem splice_self {nd l : List Char} {i : Nat} (h : nd <+: l.drop i) :
    l.take i ++ nd ++ l.drop (i + nd.length) = l := by
  obtain ⟨tl, htl⟩ := h
  have h2 : (l.drop i).drop nd.length = tl := by rw [← htl, List.drop_left]
  have h3 : l.drop (i + nd.length) = tl := by
    rw [← List.drop_drop]
    exact h2
  rw [h3, List.append_assoc, htl, List.take_append_drop]

theorem str_mk_data (s : String) : String.mk s.data = s := rfl

/-! ### Claim theorems: re-location guard and frame property -/

/-- C1: if the original tag text does not occur as a substring of the
current document text, `insertAltText` fails with the tag-not-found
error, producing no edit, and the document text is unchanged. -/
theorem insertAltText_tag_absent (text imgElement altText : String)
    (h : ¬ imgElement.data <:+: text.data) :
    insertAltText text imgElement altText = none ∧
    applyEdit text (insertAltText text imgElement altText) = text := by
  have h0 : strIndexOf imgElement.data text.data = none := strIndexOf_none_iff.mpr h
  have e : insertAltText text imgElement altText = none := by
    unfold insertAltText
    rw [h0]
  exact ⟨e, by rw [e]; rfl⟩

theorem insertAltText_tag_absent_witness :
    ¬ ("<img>".data <:+: "hello world".data) ∧
    insertAltText "hello world" "<img>" "x" = none ∧
    applyEdit "hello world" (insertAltText "hello world" "<img>" "x") = "hello world" :=
  ⟨by decide, insertAltText_tag_absent "hello world" "<img>" "x" (by decide)⟩

/-- C2: when the original tag text occurs in the current document text,
the rewrite returns the replacement range `[i, i + length)` at the first
occurrence `i` of the tag text, and applying the single replacement
leaves everything outside that range byte-for-byte unchanged. -/
theorem insertAltText_range_frame (text imgElement altText : String)
    (h : imgElement.data <:+: text.data) :
    ∃ r : RewriteResult, insertAltText text imgElement altText = some r ∧
      imgElement.data <+: text.data.drop r.start ∧
      (∀ j, j < r.start → ¬ imgElement.data <+: text.data.drop j) ∧
      r.stop = r.start + imgElement.data.length ∧
      (applyRewrite text r).data =
        text.data.take r.start ++ r.newTagText.data ++
          text.data.drop (r.start + imgElement.data.length) := by
  obtain ⟨i, hi⟩ := strIndexOf_of_infix h
  obtain ⟨hpre, hmin⟩ := strIndexOf_some hi
  refine ⟨⟨computeNewTag imgElement altText, i, i + imgElement.data.length⟩, ?_, hpre, hmin,
    rfl, rfl⟩
  unfold insertAltText
  rw [hi]

theorem insertAltText_range_frame_witness :
    ("<img>".data <:+: "ab<img>cd".data) ∧
    ∃ r : RewriteResult, insertAltText "ab<img>cd" "<img>" "cat" = some r ∧
      "<img>".data <+: "ab<img>cd".data.drop r.start ∧
      (∀ j, j < r.start → ¬ "<img>".data <+: "ab<img>cd".data.drop j) ∧
      r.stop = r.start + "<img>".data.length ∧
      (applyRewrite "ab<img>cd" r).data =
        "ab<img>cd".data.take r.start ++ r.newTagText.data ++
          "ab<img>cd".data.drop (r.start + "<img>".data.length) :=
  ⟨by decide, insertAltText_range_frame "ab<img>cd" "<img>" "cat" (by decide)⟩

/-! ### Claim theorems: locator accepts `imgx`, translation guard -/

/-- C10: the locator pattern has no boundary after `img`, so a cursor
inside `<imgx src="a.png">` — whose tag name merely begins with `img` —
still locates that span. -/
theorem findImgElementAtPosition_imgx :
    findImgElementAtPosition "<imgx src=\"a.png\">" 3 = some "<imgx src=\"a.png\">" := by
  decide

/-- C7 (code bug evidence): on an `img` tag whose `alt` attribute is
present with the empty-string value, extraction returns `some ""` (the
attribute is present), yet the translate command's `if (!altText)` guard
(JavaScript falsiness) fires and aborts with "No alt text found",
treating the decorative empty value as missing. -/
theorem translate_guard_rejects_empty_alt :
    extractAltText "<img src=\"a.png\" alt=\"\">" = some "" ∧
    translateAltMissingCheck (extractAltText "<img src=\"a.png\" alt=\"\">") = true :=
  ⟨by rfl, by rfl⟩

/-! ### Lemmas about the replacement substitution and attribute matching -/

theorem getSubstitution_id {m b a : List Char} :
    ∀ {tpl : List Char}, (∀ c ∈ tpl, c.toNat ≠ 36) → getSubstitution tpl m b a = tpl := by
  intro tpl
  induction tpl with
  | nil => intro _; rfl
  | cons c rest ih =>
    intro h
    cases rest with
    | nil => rfl
    | cons d r2 =>
      have hc : c.toNat ≠ 36 := h c (by simp)
      have ih' := ih (fun x hx => h x (List.mem_cons_of_mem c hx))
      simp only [getSubstitution, hc, if_false]
      rw [ih']

theorem matchValueClose_closed {vs : List Char} (r : List Char) (q : Char)
    (hvs : ∀ c ∈ vs, isQuote c = false) (hq : isQuote q = true) :
    matchValueClose (vs ++ q :: r) = some (vs.length + 1, vs) := by
  induction vs with
  | nil => simp [matchValueClose, hq]
  | cons c cs ih =>
    have hc : isQuote c = false := hvs c (by simp)
    have ih' := ih (fun x hx => hvs x (List.mem_cons_of_mem c hx))
    simp [matchValueClose, hc, ih']

theorem matchAttrAt_altRepl (vs suf : List Char)
    (hq : ∀ c ∈ vs, isQuote c = false) :
    matchAttrAt altName true ('a' :: 'l' :: 't' :: '=' :: dq :: (vs ++ dq :: suf)) =
      some (6 + vs.length, vs) := by
  have hv := matchValueClose_closed suf dq hq (by decide)
  simp only [matchAttrAt, altName, stripCI,
    show charCI 'a' 'a' = true from by decide, show charCI 'l' 'l' = true from by decide,
    show charCI 't' 't' = true from by decide, if_true, matchWsEq,
    show isWs '=' = false from by decide, show ('=').toNat = 61 from by decide,
    Bool.false_eq_true, if_false, matchWsQuote, show isWs dq = false from by decide,
    show isQuote dq = true from by decide, hv]
  simp only [Bool.true_or, if_true, List.length_cons, List.length_nil, Option.some.injEq,
    Prod.mk.injEq]
  exact ⟨by omega, trivial⟩

theorem matchAttrAt_srcRepl (vs suf : List Char)
    (hq : ∀ c ∈ vs, isQuote c = false) (hne : vs ≠ []) :
    matchAttrAt srcName false ('s' :: 'r' :: 'c' :: '=' :: dq :: (vs ++ dq :: suf)) =
      some (6 + vs.length, vs) := by
  have hv := matchValueClose_closed suf dq hq (by decide)
  simp only [matchAttrAt, srcName, stripCI,
    show charCI 's' 's' = true from by decide, show charCI 'r' 'r' = true from by decide,
    show charCI 'c' 'c' = true from by decide, if_true, matchWsEq,
    show isWs '=' = false from by decide, show ('=').toNat = 61 from by decide,
    Bool.false_eq_true, if_false, matchWsQuote, show isWs dq = false from by decide,
    show isQuote dq = true from by decide, hv]
  have hE : vs.isEmpty = false := by
    cases vs with
    | nil => exact absurd rfl hne
    | cons a b => rfl
  simp only [hE, Bool.false_or, Bool.not_false, if_true, List.length_cons, List.length_nil,
    Option.some.injEq, Prod.mk.injEq]
  exact ⟨by omega, trivial⟩

theorem matchAttrAt_nil (name : List Char) (ae : Bool) :
    matchAttrAt name ae [] = none := by
  cases name with
  | nil => simp [matchAttrAt, stripCI, matchWsEq]
  | cons p ps => simp [matchAttrAt, stripCI]

theorem matchAttrAt_head_fail_alt {c : Char} (h : charCI 'a' c = false) (xs : List Char)
    (ae : Bool) : matchAttrAt altName ae (c :: xs) = none := by
  simp [matchAttrAt, altName, stripCI, h]

theorem matchAttrAt_head_fail_src {c : Char} (h : charCI 's' c = false) (xs : List Char)
    (ae : Bool) : matchAttrAt srcName ae (c :: xs) = none := by
  simp [matchAttrAt, srcName, stripCI, h]

theorem findAttr_some_iff {name : List Char} {ae : Bool} {l : List Char} {s n : Nat}
    {v : List Char} :
    findAttr name ae l = some (s, n, v) ↔
      matchAttrAt name ae (l.drop s) = some (n, v) ∧
        ∀ p, p < s → matchAttrAt name ae (l.drop p) = none := by
  induction l generalizing s with
  | nil =>
    simp only [findAttr]
    constructor
    · intro h; cases h
    · rintro ⟨h1, _⟩
      rw [List.drop_nil, matchAttrAt_nil] at h1
      cases h1
  | cons c t ih =>
    cases hm : matchAttrAt name ae (c :: t) with
    | some p =>
      obtain ⟨n', v'⟩ := p
      simp only [findAttr, hm]
      constructor
      · intro h
        injection h with h
        simp only [Prod.mk.injEq] at h
        obtain ⟨rfl, rfl, rfl⟩ := h
        exact ⟨by simpa using hm, fun p hp => absurd hp (by omega)⟩
      · rintro ⟨h1, h2⟩
        cases s with
        | zero =>
          rw [List.drop_zero, hm] at h1
          injection h1 with h1
          simp [h1]
        | succ s' =>
          have h0 := h2 0 (by omega)
          rw [List.drop_zero, hm] at h0
          simp at h0
    | none =>
      simp only [findAttr, hm]
      constructor
      · intro h
        simp only [Option.map_eq_some'] at h
        obtain ⟨⟨s0, n0, v0⟩, hfind, heq⟩ := h
        obtain ⟨hs, hn, hv⟩ : s0 + 1 = s ∧ n0 = n ∧ v0 = v := by
          refine ⟨congrArg Prod.fst heq, ?_, ?_⟩
          · exact congrArg (fun x => x.2.1) heq
          · exact congrArg (fun x => x.2.2) heq
        subst hs; subst hn; subst hv
        obtain ⟨h1, h2⟩ := ih.mp hfind
        refine ⟨h1, ?_⟩
        intro p hp
        cases p with
        | zero => simpa using hm
        | succ p' => exact h2 p' (by omega)
      · rintro ⟨h1, h2⟩
        cases s with
        | zero => rw [List.drop_zero, hm] at h1; cases h1
        | succ s' =>
          have := ih.mpr ⟨h1, fun p hp => h2 (p + 1) (by omega)⟩
          rw [this]
          rfl

theorem findAttr_none_iff {name : List Char} {ae : Bool} {l : List Char} :
    findAttr name ae l = none ↔ ∀ p, matchAttrAt name ae (l.drop p) = none := by
  induction l with
  | nil =>
    simp only [findAttr, true_iff]
    intro p
    rw [List.drop_nil, matchAttrAt_nil]
  | cons c t ih =>
    cases hm : matchAttrAt name ae (c :: t) with
    | some p =>
      simp only [findAttr, hm]
      constructor
      · intro h
        exact absurd h (by simp)
      · intro h
        have h0 := h 0
        rw [List.drop_zero, hm] at h0
        exact absurd h0 (by simp)
    | none =>
      simp only [findAttr, hm, Option.map_eq_none', ih]
      constructor
      · intro h p
        cases p with
        | zero => simpa using hm
        | succ p' => exact h p'
      · intro h p
        exact h (p + 1)

/-! ### Claim theorems: the rewrite templates (C4) -/

theorem altReplacement_eq (V : String) :
    altReplacement V = ("alt=\"" ++ V ++ "\"").data := by
  have h1 : ("alt=\"").data = ['a', 'l', 't', '=', dq] := by decide
  have h2 : ("\"").data = [dq] := by decide
  rw [String.data_append, String.data_append, h1, h2]
  simp [altReplacement]

theorem altAppendReplacement_eq (V : String) :
    altAppendReplacement V = (" alt=\"" ++ V ++ "\">").data := by
  have h1 : (" alt=\"").data = [' ', 'a', 'l', 't', '=', dq] := by decide
  have h2 : ("\">").data = [dq, '>'] := by decide
  rw [String.data_append, String.data_append, h1, h2]
  simp [altAppendReplacement]

theorem altReplacement_no_dollar {V : String} (hd : ∀ c ∈ V.data, c.toNat ≠ 36) :
    ∀ c ∈ altReplacement V, c.toNat ≠ 36 := by
  intro c hc
  simp only [altReplacement, List.mem_cons, List.mem_append, List.not_mem_nil,
    or_false] at hc
  rcases hc with rfl | rfl | rfl | rfl | rfl | hc | rfl <;>
    first
    | decide
    | exact hd c hc

theorem altAppendReplacement_no_dollar {V : String} (hd : ∀ c ∈ V.data, c.toNat ≠ 36) :
    ∀ c ∈ altAppendReplacement V, c.toNat ≠ 36 := by
  intro c hc
  simp only [altAppendReplacement, List.mem_cons, List.mem_append, List.not_mem_nil,
    or_false] at hc
  rcases hc with rfl | rfl | rfl | rfl | rfl | rfl | hc | rfl | rfl <;>
    first
    | decide
    | exact hd c hc

/-- C4 (counterexample to "inserted verbatim"): JavaScript `replace`
interprets `$`-patterns in the replacement string, so the new alt value
`$&` is expanded to the matched text instead of being inserted
verbatim: the rewritten tag is `<img alt="alt="x"">`, not
`<img alt="$&">`. -/
theorem computeNewTag_dollar_cex :
    computeNewTag "<img alt=\"x\">" "$&" = "<img alt=\"alt=\"x\"\">" ∧
    computeNewTag "<img alt=\"x\">" "$&" ≠ "<img alt=\"$&\">" := by
  constructor
  · rfl
  · decide

/-- C4 (amended): provided the new alt value contains no `$` character,
it is inserted verbatim: when the tag's first `alt` attribute match
spans `[s, s+n)`, the rewritten tag is the tag with that span replaced
in place by `alt="V"` (double-quoted), every other character unchanged;
when the tag has no `alt` attribute and ends in `>`, the rewritten tag
is the tag with ` alt="V"` inserted immediately before the trailing
`>`. -/
theorem computeNewTag_splice (imgElement V : String)
    (hd : ∀ c ∈ V.data, c.toNat ≠ 36) :
    (∀ s n v, findAttr altName true imgElement.data = some (s, n, v) →
      computeNewTag imgElement V =
        String.mk (imgElement.data.take s ++ ("alt=\"" ++ V ++ "\"").data ++
          imgElement.data.drop (s + n))) ∧
    (findAttr altName true imgElement.data = none →
      imgElement.data.getLast? = some '>' →
      computeNewTag imgElement V =
        String.mk (imgElement.data.dropLast ++ (" alt=\"" ++ V ++ "\">").data)) := by
  constructor
  · intro s n v hfind
    simp only [computeNewTag, hfind]
    rw [getSubstitution_id (altReplacement_no_dollar hd), altReplacement_eq]
  · intro hfind hlast
    simp only [computeNewTag, hfind, hlast]
    rw [if_pos (by decide : ('>').toNat = 62)]
    rw [getSubstitution_id (altAppendReplacement_no_dollar hd), altAppendReplacement_eq]

theorem computeNewTag_splice_witness :
    findAttr altName true "<img src=\"a.png\" alt=\"old\">".data = some (17, 9, "old".data) ∧
    computeNewTag "<img src=\"a.png\" alt=\"old\">" "new" =
      String.mk ("<img src=\"a.png\" alt=\"old\">".data.take 17 ++
        ("alt=\"" ++ "new" ++ "\"").data ++
        "<img src=\"a.png\" alt=\"old\">".data.drop (17 + 9)) :=
  ⟨by decide, (computeNewTag_splice "<img src=\"a.png\" alt=\"old\">" "new" (by decide)).1
    17 9 "old".data (by decide)⟩

/-! ### Claim theorems: attribute extraction (C6) -/

theorem extractAlt_roundtrip (V : String) (hq : ∀ c ∈ V.data, isQuote c = false) :
    extractAltText ("<img alt=\"" ++ V ++ "\">") = some V := by
  have hdata : ("<img alt=\"" ++ V ++ "\">").data =
      '<' :: 'i' :: 'm' :: 'g' :: ' ' :: 'a' :: 'l' :: 't' :: '=' :: dq ::
        (V.data ++ [dq, '>']) := by
    rw [String.data_append, String.data_append,
      show ("<img alt=\"").data = ['<', 'i', 'm', 'g', ' ', 'a', 'l', 't', '=', dq]
        from by decide,
      show ("\">").data = [dq, '>'] from by decide]
    simp
  have hmain : findAttr altName true ("<img alt=\"" ++ V ++ "\">").data =
      some (5, 6 + V.data.length, V.data) := by
    rw [hdata]
    apply findAttr_some_iff.mpr
    refine ⟨?_, ?_⟩
    · exact matchAttrAt_altRepl V.data ['>'] hq
    · intro p hp
      interval_cases p <;> exact matchAttrAt_head_fail_alt (by decide) _ _
  unfold extractAltText
  rw [hmain]
  simp [str_mk_data]

theorem extractSrc_roundtrip (S : String) (hq : ∀ c ∈ S.data, isQuote c = false)
    (hne : S.data ≠ []) :
    extractSrcAttribute ("<img src=\"" ++ S ++ "\">") = some S := by
  have hdata : ("<img src=\"" ++ S ++ "\">").data =
      '<' :: 'i' :: 'm' :: 'g' :: ' ' :: 's' :: 'r' :: 'c' :: '=' :: dq ::
        (S.data ++ [dq, '>']) := by
    rw [String.data_append, String.data_append,
      show ("<img src=\"").data = ['<', 'i', 'm', 'g', ' ', 's', 'r', 'c', '=', dq]
        from by decide,
      show ("\">").data = [dq, '>'] from by decide]
    simp
  have hmain : findAttr srcName false ("<img src=\"" ++ S ++ "\">").data =
      some (5, 6 + S.data.length, S.data) := by
    rw [hdata]
    apply findAttr_some_iff.mpr
    refine ⟨?_, ?_⟩
    · exact matchAttrAt_srcRepl S.data ['>'] hq hne
    · intro p hp
      interval_cases p <;> exact matchAttrAt_head_fail_src (by decide) _ _
  unfold extractSrcAttribute
  rw [hmain]
  simp [str_mk_data]

/-- C6 (counterexample): the `src` pattern uses `[^"']+`, not `[^"']*`,
so a present-but-empty `src=""` attribute does not match and extraction
returns `null` — not the empty string that the claim asserts for both
attributes. -/
theorem extractSrcAttribute_empty_cex :
    extractSrcAttribute "<img src=\"\">" = none ∧
    extractSrcAttribute "<img src=\"\">" ≠ some "" := by
  exact ⟨by rfl, by decide⟩

/-- C6 (amended): `alt` extraction matches `alt\s*=\s*["']([^"']*)["']`
and round-trips every quote-free value, including the empty string
(returned as `some ""`, distinct from `none`); `src` extraction uses
`src\s*=\s*["']([^"']+)["']`, which round-trips every nonempty
quote-free value but treats an empty `src=""` as absent (`none`); an
absent attribute yields `none` for both. -/
theorem extract_attr_behavior :
    (∀ V : String, (∀ c ∈ V.data, isQuote c = false) →
      extractAltText ("<img alt=\"" ++ V ++ "\">") = some V) ∧
    extractAltText "<img alt=\"\">" = some "" ∧
    (∀ S : String, (∀ c ∈ S.data, isQuote c = false) → S.data ≠ [] →
      extractSrcAttribute ("<img src=\"" ++ S ++ "\">") = some S) ∧
    extractSrcAttribute "<img src=\"\">" = none ∧
    extractAltText "<img>" = none ∧
    extractSrcAttribute "<img>" = none :=
  ⟨fun V hq => extractAlt_roundtrip V hq, by rfl,
    fun S hq hne => extractSrc_roundtrip S hq hne, by rfl, by rfl, by rfl⟩

theorem extract_attr_behavior_witness :
    extractAltText "<img alt=\"hello\">" = some "hello" ∧
    extractSrcAttribute "<img src=\"a.png\">" = some "a.png" :=
  ⟨extract_attr_behavior.1 "hello" (by decide),
    extract_attr_behavior.2.2.1 "a.png" (by decide) (by decide)⟩

/-! ### Claim theorems: source resolution (C8) and data URIs (C9) -/

/-- C8 (counterexample): a `src` that starts with `/` — hence is not
relative — still fails with the no-workspace error when no workspace
root is available, because `prepareImageData` checks for a workspace
folder before looking at the path's shape. -/
theorem prepareImageData_absolute_no_workspace_cex :
    strStartsWith "/images/cat.png" "/" = true ∧
    prepareImageData "/images/cat.png" "/proj/page.html" none (fun _ => none) =
      Except.error ResolveError.noWorkspace :=
  ⟨by decide, by rfl⟩

/-- C8 (amended): for a non-URL `src`, `prepareImageData` fails with the
no-workspace error exactly when no workspace root is available —
whether or not the path is relative; given a workspace root, a `src`
starting with `/` resolves against the workspace root and any other
`src` against the directory of the current document, after which the
resolved path is read. -/
theorem prepareImageData_resolution (src documentPath : String)
    (workspaceRoot : Option String) (fs : String → Option (List Nat)) :
    (prepareImageData src documentPath workspaceRoot fs =
        Except.error ResolveError.noWorkspace ↔
      (isHttpSrc src = false ∧ workspaceRoot = none)) ∧
    (∀ ws, workspaceRoot = some ws → isHttpSrc src = false →
      prepareImageData src documentPath workspaceRoot fs =
        (match fs (resolvedPath src documentPath ws) with
         | none => Except.error (ResolveError.fileRead (resolvedPath src documentPath ws))
         | some bytes => Except.ok (dataUriFor (resolvedPath src documentPath ws) bytes))) ∧
    (strStartsWith src "/" = true →
      ∀ ws, resolvedPath src documentPath ws = pathJoin ws src) ∧
    (strStartsWith src "/" = false →
      ∀ ws, resolvedPath src documentPath ws = pathJoin (pathDirname documentPath) src) ∧
    pathJoin (pathDirname "/proj/page.html") "images/cat.png" = "/proj/images/cat.png" ∧
    pathJoin "/ws" "/images/cat.png" = "/ws/images/cat.png" := by
  refine ⟨?_, ?_, ?_, ?_, by rfl, by rfl⟩
  · cases hh : isHttpSrc src
    · cases workspaceRoot with
      | none => simp [prepareImageData, hh]
      | some ws =>
        simp only [prepareImageData, hh, Bool.false_eq_true, if_false]
        cases hfs : fs (resolvedPath src documentPath ws) <;> simp [hfs]
    · simp [prepareImageData, hh]
  · rintro ws rfl hh
    simp only [prepareImageData, hh, Bool.false_eq_true, if_false]
  · intro h ws
    simp [resolvedPath, h]
  · intro h ws
    simp [resolvedPath, h]

theorem prepareImageData_resolution_witness :
    prepareImageData "images/cat.png" "/proj/page.html" (some "/ws") (fun _ => none) =
      Except.error (ResolveError.fileRead "/proj/images/cat.png") := by
  have h := (prepareImageData_resolution "images/cat.png" "/proj/page.html" (some "/ws")
    (fun _ => none)).2.1 "/ws" rfl (by decide)
  exact h.trans (by rfl)

/-- C9: a successfully read local file is returned as
`data:<mime>;base64,<payload>` with `payload` the base64 encoding of
the file bytes and `mime` taken from the fixed table over the lowercased
extension (`.png`, `.gif`, `.webp`, `.svg`), all other extensions
defaulting to `image/jpeg`. -/
theorem prepareImageData_data_uri (src documentPath ws : String)
    (fs : String → Option (List Nat)) (bytes : List Nat)
    (hh : isHttpSrc src = false)
    (hr : fs (resolvedPath src documentPath ws) = some bytes) :
    prepareImageData src documentPath (some ws) fs =
      Except.ok ("data:" ++
        getMimeType (strToLower (pathExtname (resolvedPath src documentPath ws))) ++
        ";base64," ++ base64Encode bytes) ∧
    getMimeType ".png" = "image/png" ∧
    getMimeType ".gif" = "image/gif" ∧
    getMimeType ".webp" = "image/webp" ∧
    getMimeType ".svg" = "image/svg+xml" ∧
    (∀ e : String, e ≠ ".png" → e ≠ ".gif" → e ≠ ".webp" → e ≠ ".svg" →
      getMimeType e = "image/jpeg") ∧
    strToLower (pathExtname "/a/b.SVG") = ".svg" ∧
    strToLower (pathExtname "/a/b.xyz") = ".xyz" ∧
    getMimeType ".xyz" = "image/jpeg" ∧
    base64Encode [137, 80, 78, 71] = "iVBORw==" := by
  refine ⟨?_, rfl, rfl, rfl, rfl, ?_, by rfl, by rfl, by rfl, by rfl⟩
  · simp only [prepareImageData, hh, Bool.false_eq_true, if_false, hr, dataUriFor]
  · intro e h1 h2 h3 h4
    simp [getMimeType, h1, h2, h3, h4]

theorem prepareImageData_data_uri_witness :
    prepareImageData "b.png" "/proj/page.html" (some "/ws")
      (fun p => if p = "/proj/b.png" then some [137, 80, 78, 71] else none) =
      Except.ok "data:image/png;base64,iVBORw==" := by
  have h := (prepareImageData_data_uri "b.png" "/proj/page.html" "/ws"
    (fun p => if p = "/proj/b.png" then some [137, 80, 78, 71] else none) [137, 80, 78, 71]
    (by decide) (by decide)).1
  exact h.trans (by rfl)

/-! ### Claim theorems: the tag locator (C3) -/

theorem charCI_cases {p c : Char} (h : charCI p c = true) :
    c.toNat = p.toNat ∨ c.toNat + 32 = p.toNat := by
  simp only [charCI, Bool.or_eq_true, decide_eq_true_eq, Bool.and_eq_true] at h
  rcases h with h | h
  · exact Or.inl h
  · exact Or.inr h.2

theorem imgLex_length {m : List Char} (h : IsImgLex m) : 5 ≤ m.length := by
  obtain ⟨c1, c2, c3, c4, body, c5, rfl, -⟩ := h
  simp only [List.length_cons, List.length_append, List.length_singleton]
  omega

theorem takeWhile_all_append {p : Char → Bool} {xs : List Char}
    (h : ∀ c ∈ xs, p c = true) (ys : List Char) :
    (xs ++ ys).takeWhile p = xs ++ ys.takeWhile p := by
  induction xs with
  | nil => simp
  | cons a t ih =>
    have ha : p a = true := h a (by simp)
    simp [List.takeWhile_cons, ha, ih (fun c hc => h c (List.mem_cons_of_mem a hc))]

theorem dropWhile_all_append {p : Char → Bool} {xs : List Char}
    (h : ∀ c ∈ xs, p c = true) (ys : List Char) :
    (xs ++ ys).dropWhile p = ys.dropWhile p := by
  induction xs with
  | nil => simp
  | cons a t ih =>
    have ha : p a = true := h a (by simp)
    simp [List.dropWhile_cons, ha, ih (fun c hc => h c (List.mem_cons_of_mem a hc))]

theorem head_dropWhile_false {p : Char → Bool} :
    ∀ {l : List Char} {c : Char} {cs : List Char}, l.dropWhile p = c :: cs → p c = false
  | [], _, _, h => by cases h
  | a :: t, c, cs, h => by
    by_cases hp : p a
    · rw [List.dropWhile_cons, if_pos hp] at h
      exact head_dropWhile_false h
    · rw [List.dropWhile_cons, if_neg hp] at h
      injection h with h1 _
      rw [← h1]
      simpa using hp

theorem stripCI_imgPat_decomp {u r : List Char} (h : stripCI imgPat u = some r) :
    ∃ c1 c2 c3 c4, u = c1 :: c2 :: c3 :: c4 :: r ∧ charCI '<' c1 = true ∧
      charCI 'i' c2 = true ∧ charCI 'm' c3 = true ∧ charCI 'g' c4 = true := by
  cases u with
  | nil => simp [imgPat, stripCI] at h
  | cons c1 u1 =>
  cases u1 with
  | nil => simp [imgPat, stripCI] at h
  | cons c2 u2 =>
  cases u2 with
  | nil => simp [imgPat, stripCI] at h
  | cons c3 u3 =>
  cases u3 with
  | nil => simp [imgPat, stripCI] at h
  | cons c4 u4 =>
  simp only [imgPat, stripCI] at h
  split_ifs at h with h1 h2 h3 h4
  · injection h with h
    exact ⟨c1, c2, c3, c4, by rw [h], h1, h2, h3, h4⟩

theorem matchImgAt_of_imgLex {m : List Char} (h : IsImgLex m) (rest : List Char) :
    matchImgAt (m ++ rest) = some m.length := by
  obtain ⟨c1, c2, c3, c4, body, c5, rfl, h1, h2, h3, h4, hbody, h5⟩ := h
  have hb : ∀ c ∈ body, (fun c : Char => c.toNat != 62) c = true := by
    intro c hc
    simpa using hbody c hc
  have hstrip : stripCI imgPat
      (c1 :: c2 :: c3 :: c4 :: ((body ++ [c5]) ++ rest)) = some ((body ++ [c5]) ++ rest) := by
    simp [stripCI, imgPat, h1, h2, h3, h4]
  have hform : (body ++ [c5]) ++ rest = body ++ (c5 :: rest) := by simp
  have hdw : ((body ++ [c5]) ++ rest).dropWhile (fun c => c.toNat != 62) = c5 :: rest := by
    rw [hform, dropWhile_all_append hb]
    rw [List.dropWhile_cons, if_neg (by simp [h5])]
  have htw : ((body ++ [c5]) ++ rest).takeWhile (fun c => c.toNat != 62) = body := by
    rw [hform, takeWhile_all_append hb]
    rw [List.takeWhile_cons, if_neg (by simp [h5])]
    simp
  show matchImgAt (c1 :: c2 :: c3 :: c4 :: ((body ++ [c5]) ++ rest)) = _
  unfold matchImgAt
  rw [hstrip]
  dsimp only
  rw [hdw, htw]
  refine congrArg some ?_
  simp only [List.length_cons, List.length_append, List.length_nil]
  omega

theorem matchImgAt_decomp {u : List Char} {n : Nat} (h : matchImgAt u = some n) :
    ∃ m rest, u = m ++ rest ∧ IsImgLex m ∧ m.length = n := by
  unfold matchImgAt at h
  split at h
  · cases h
  · rename_i r hs
    split at h
    · cases h
    · rename_i g grest hd
      injection h with h
      obtain ⟨c1, c2, c3, c4, rfl, h1, h2, h3, h4⟩ := stripCI_imgPat_decomp hs
      have hr : r.takeWhile (fun c : Char => c.toNat != 62) ++ g :: grest = r := by
        have h0 := List.takeWhile_append_dropWhile (fun c : Char => c.toNat != 62) r
        rw [hd] at h0
        exact h0
      refine ⟨c1 :: c2 :: c3 :: c4 :: (r.takeWhile (fun c => c.toNat != 62) ++ [g]), grest,
        ?_, ?_, ?_⟩
      · simp only [List.cons_append, List.append_assoc, List.singleton_append,
          List.nil_append]
        rw [hr]
      · refine ⟨c1, c2, c3, c4, r.takeWhile (fun c => c.toNat != 62), g, rfl, h1, h2, h3, h4,
          ?_, ?_⟩
        · intro c hc
          have := List.mem_takeWhile_imp hc
          simpa using this
        · have := head_dropWhile_false hd
          simpa using this
      · simp only [List.length_cons, List.length_append, List.length_nil]
        omega

theorem matchImgAt_le_length {u : List Char} {n : Nat} (h : matchImgAt u = some n) :
    n ≤ u.length := by
  obtain ⟨m, rest, rfl, _, hlen⟩ := matchImgAt_decomp h
  simp [← hlen]

theorem imgLex_no_gt {m : List Char} (h : IsImgLex m) {j : Nat} {c : Char}
    (hj : j + 1 < m.length) (hg : m[j]? = some c) : c.toNat ≠ 62 := by
  obtain ⟨c1, c2, c3, c4, body, c5, rfl, h1, h2, h3, h4, hbody, h5⟩ := h
  have hfront : ∀ x ∈ (c1 :: c2 :: c3 :: c4 :: body : List Char), x.toNat ≠ 62 := by
    intro x hx
    simp only [List.mem_cons] at hx
    have e1 : ('<').toNat = 60 := by decide
    have e2 : ('i').toNat = 105 := by decide
    have e3 : ('m').toNat = 109 := by decide
    have e4 : ('g').toNat = 103 := by decide
    rcases hx with rfl | rfl | rfl | rfl | hx
    · rcases charCI_cases h1 with hh | hh <;> omega
    · rcases charCI_cases h2 with hh | hh <;> omega
    · rcases charCI_cases h3 with hh | hh <;> omega
    · rcases charCI_cases h4 with hh | hh <;> omega
    · exact hbody x hx
  have hm2 : c1 :: c2 :: c3 :: c4 :: (body ++ [c5]) =
      (c1 :: c2 :: c3 :: c4 :: body) ++ [c5] := by simp
  rw [hm2] at hg hj
  have hjlt : j < (c1 :: c2 :: c3 :: c4 :: body).length := by
    simp only [List.length_append, List.length_singleton] at hj
    omega
  rw [List.getElem?_append, if_pos hjlt] at hg
  exact hfront c (List.getElem?_mem hg)

theorem matchImgAt_nested {u : List Char} {k n q : Nat}
    (hm : matchImgAt u = some k) (hq : matchImgAt (u.drop q) = some n)
    (h2 : q < k) : q + n ≤ k := by
  obtain ⟨m, rest, rfl, hlex, hlen⟩ := matchImgAt_decomp hm
  obtain ⟨m', rest', hdrop, hlex', hlen'⟩ := matchImgAt_decomp hq
  by_contra hcon
  push_neg at hcon
  have hqm : q ≤ m.length := by omega
  have hdq : (m ++ rest).drop q = m.drop q ++ rest := by
    rw [List.drop_append_eq_append_drop, Nat.sub_eq_zero_of_le hqm, List.drop_zero]
  obtain ⟨c1, c2, c3, c4, body, c5, hm_eq, hc1, hc2, hc3, hc4, hbody, h62⟩ := hlex
  have hm2 : m = (c1 :: c2 :: c3 :: c4 :: body) ++ [c5] := by rw [hm_eq]; simp
  have hfl : (c1 :: c2 :: c3 :: c4 :: body : List Char).length = k - 1 := by
    have := hlen
    rw [hm2] at this
    simp only [List.length_append, List.length_singleton] at this
    omega
  have hqf : q ≤ (c1 :: c2 :: c3 :: c4 :: body : List Char).length := by omega
  have hdqm : m.drop q = (c1 :: c2 :: c3 :: c4 :: body).drop q ++ [c5] := by
    rw [hm2, List.drop_append_eq_append_drop, Nat.sub_eq_zero_of_le hqf, List.drop_zero]
  set df := (c1 :: c2 :: c3 :: c4 :: body : List Char).drop q with hdf
  have hdfl : df.length = k - 1 - q := by rw [hdf, List.length_drop, hfl]
  have hchain : (df ++ [c5]) ++ rest = m' ++ rest' := by
    rw [← hdqm, ← hdq, hdrop]
  have hp1 : (df ++ [c5]) <+: m' ++ rest' := hchain ▸ List.prefix_append (df ++ [c5]) rest
  have hp2 : m' <+: m' ++ rest' := List.prefix_append m' rest'
  have hple : (df ++ [c5]).length ≤ m'.length := by
    simp only [List.length_append, List.length_singleton, hdfl, hlen']
    omega
  have hpre : (df ++ [c5]) <+: m' := List.prefix_of_prefix_length_le hp1 hp2 hple
  obtain ⟨tl, htl⟩ := hpre
  have hidx : m'[df.length]? = some c5 := by
    rw [← htl, List.getElem?_append,
      if_pos (by simp only [List.length_append, List.length_singleton]; omega)]
    rw [List.getElem?_append_right (le_refl df.length)]
    simp
  have hjlt : df.length + 1 < m'.length := by
    rw [hdfl, hlen']
    omega
  exact absurd h62 (imgLex_no_gt hlex' hjlt hidx)

theorem scanFrom_start_le :
    ∀ (l : List Char) (pos skip : Nat), ∀ e ∈ scanFrom l pos skip, pos + skip ≤ e.1 := by
  intro l
  induction l with
  | nil => intro pos skip e he; simp [scanFrom] at he
  | cons c t ih =>
    intro pos skip e he
    cases skip with
    | succ s =>
      have := ih (pos + 1) s e (by simpa [scanFrom] using he)
      omega
    | zero =>
      cases hm : matchImgAt (c :: t) with
      | some n =>
        simp only [scanFrom, hm, List.mem_cons] at he
        rcases he with rfl | he
        · omega
        · have := ih (pos + 1) (n - 1) e he
          omega
      | none =>
        simp only [scanFrom, hm] at he
        have := ih (pos + 1) 0 e he
        omega

theorem scanFrom_pairwise :
    ∀ (l : List Char) (pos skip : Nat),
      (scanFrom l pos skip).Pairwise (fun x y => x.1 ≤ y.1) := by
  intro l
  induction l with
  | nil => intro pos skip; simp [scanFrom]
  | cons c t ih =>
    intro pos skip
    cases skip with
    | succ s => simpa [scanFrom] using ih (pos + 1) s
    | zero =>
      cases hm : matchImgAt (c :: t) with
      | some n =>
        simp only [scanFrom, hm]
        refine List.Pairwise.cons ?_ (ih (pos + 1) (n - 1))
        intro e he
        have := scanFrom_start_le t (pos + 1) (n - 1) e he
        omega
      | none =>
        simpa [scanFrom, hm] using ih (pos + 1) 0

theorem scanFrom_sound :
    ∀ (l : List Char) (pos skip : Nat), ∀ e ∈ scanFrom l pos skip,
      ∃ q, skip ≤ q ∧ e.1 = pos + q ∧ matchImgAt (l.drop q) = some e.2.length ∧
        e.2 = (l.drop q).take e.2.length := by
  intro l
  induction l with
  | nil => intro pos skip e he; simp [scanFrom] at he
  | cons c t ih =>
    intro pos skip e he
    cases skip with
    | succ s =>
      obtain ⟨q, hq1, hq2, hq3, hq4⟩ := ih (pos + 1) s e (by simpa [scanFrom] using he)
      exact ⟨q + 1, by omega, by omega, by simpa using hq3, by simpa using hq4⟩
    | zero =>
      cases hm : matchImgAt (c :: t) with
      | some n =>
        simp only [scanFrom, hm, List.mem_cons] at he
        rcases he with rfl | he
        · refine ⟨0, by omega, by omega, ?_, ?_⟩
          · have hn : n ≤ (c :: t).length := matchImgAt_le_length hm
            simp only [List.drop_zero]
            rw [hm]
            congr 1
            rw [List.length_take]
            omega
          · have hn : n ≤ (c :: t).length := matchImgAt_le_length hm
            simp only [List.drop_zero]
            congr 1
            rw [List.length_take]
            omega
        · obtain ⟨q, hq1, hq2, hq3, hq4⟩ := ih (pos + 1) (n - 1) e he
          exact ⟨q + 1, by omega, by omega, by simpa using hq3, by simpa using hq4⟩
      | none =>
        simp only [scanFrom, hm] at he
        obtain ⟨q, hq1, hq2, hq3, hq4⟩ := ih (pos + 1) 0 e he
        exact ⟨q + 1, by omega, by omega, by simpa using hq3, by simpa using hq4⟩

theorem scanFrom_complete :
    ∀ (l : List Char) (pos skip q n : Nat), skip ≤ q → matchImgAt (l.drop q) = some n →
      ∃ e ∈ scanFrom l pos skip, e.1 ≤ pos + q ∧ pos + q + n ≤ e.1 + e.2.length := by
  intro l
  induction l with
  | nil =>
    intro pos skip q n _ h
    rw [List.drop_nil] at h
    exact absurd h (by simp [matchImgAt, stripCI, imgPat])
  | cons c t ih =>
    intro pos skip q n hskip h
    cases skip with
    | succ s =>
      obtain ⟨q', rfl⟩ : ∃ q', q = q' + 1 := ⟨q - 1, by omega⟩
      obtain ⟨e, he, h1, h2⟩ := ih (pos + 1) s q' n (by omega) (by simpa using h)
      refine ⟨e, by simpa [scanFrom] using he, by omega, by omega⟩
    | zero =>
      cases hm : matchImgAt (c :: t) with
      | none =>
        cases q with
        | zero =>
          rw [List.drop_zero] at h
          rw [hm] at h
          cases h
        | succ q' =>
          obtain ⟨e, he, h1, h2⟩ := ih (pos + 1) 0 q' n (by omega) (by simpa using h)
          refine ⟨e, by simpa [scanFrom, hm] using he, by omega, by omega⟩
      | some k =>
        have hkl : k ≤ (c :: t).length := matchImgAt_le_length hm
        cases q with
        | zero =>
          rw [List.drop_zero] at h
          rw [hm] at h
          injection h with h
          subst h
          refine ⟨(pos, (c :: t).take k), by simp [scanFrom, hm], by omega, ?_⟩
          rw [List.length_take]
          omega
        | succ q' =>
          by_cases hqk : k ≤ q' + 1
          · obtain ⟨e, he, h1, h2⟩ := ih (pos + 1) (k - 1) q' n (by omega) (by simpa using h)
            refine ⟨e, by simp [scanFrom, hm]; right; exact he, by omega, by omega⟩
          · have hnest : q' + 1 + n ≤ k := matchImgAt_nested hm h (by omega)
            refine ⟨(pos, (c :: t).take k), by simp [scanFrom, hm], by omega, ?_⟩
            rw [List.length_take]
            omega

theorem find_min_of_pairwise {l : List (Nat × List Char)} {p : Nat × List Char → Bool}
    {e : Nat × List Char} (hs : l.Pairwise (fun x y => x.1 ≤ y.1))
    (h : l.find? p = some e) : ∀ f ∈ l, p f = true → e.1 ≤ f.1 := by
  induction l with
  | nil => cases h
  | cons x xs ih =>
    rw [List.find?_cons] at h
    intro f hf hpf
    cases hpx : p x with
    | true =>
      rw [hpx] at h
      injection h with h
      subst h
      rcases List.mem_cons.mp hf with rfl | hf
      · omega
      · exact (List.pairwise_cons.mp hs).1 f hf
    | false =>
      rw [hpx] at h
      rcases List.mem_cons.mp hf with rfl | hf
      · rw [hpf] at hpx; cases hpx
      · exact ih (List.pairwise_cons.mp hs).2 h f hf hpf

/-- C3: the locator returns the text of the first `<img[^>]*>` lexeme
(case-insensitive) whose inclusive range `[start, start + length]`
contains the offset — in particular the returned span is a genuine
lexeme occurrence, it contains the offset, and no lexeme occurrence
containing the offset starts earlier; and when `none` is returned, no
lexeme occurrence in the text contains the offset at all. -/
theorem findImgElementAtPosition_spec (text : String) (offset : Nat) :
    (∀ m : String, findImgElementAtPosition text offset = some m →
      ∃ s, ImgMatchAt text.data s m.data ∧ s ≤ offset ∧ offset ≤ s + m.data.length ∧
        ∀ p q, ImgMatchAt text.data p q → p ≤ offset → offset ≤ p + q.length → s ≤ p) ∧
    (findImgElementAtPosition text offset = none →
      ∀ p q, ImgMatchAt text.data p q → ¬ (p ≤ offset ∧ offset ≤ p + q.length)) := by
  constructor
  · intro m hm
    unfold findImgElementAtPosition at hm
    cases hfind : (scanFrom text.data 0 0).find?
        (fun e => decide (e.1 ≤ offset) && decide (offset ≤ e.1 + e.2.length)) with
    | none => rw [hfind] at hm; cases hm
    | some e =>
      rw [hfind] at hm
      simp only [Option.map_some', Option.some.injEq] at hm
      have hmem := List.mem_of_find?_eq_some hfind
      have hpred := List.find?_some hfind
      simp only [Bool.and_eq_true, decide_eq_true_eq] at hpred
      obtain ⟨q0, -, he1, he3, he4⟩ := scanFrom_sound text.data 0 0 e hmem
      obtain ⟨mm, rest, hsplit, hlex, hlen⟩ := matchImgAt_decomp he3
      have he2eq : e.2 = mm := by
        rw [he4, hsplit, ← hlen, List.take_left]
      have hdata : m.data = e.2 := by rw [← hm]
      have hdlen : m.data.length = e.2.length := by rw [hdata]
      refine ⟨q0, ⟨?_, ?_⟩, ?_, ?_, ?_⟩
      · rw [hdata, he2eq]; exact hlex
      · rw [hdata, he2eq, hsplit]; exact List.prefix_append mm rest
      · omega
      · omega
      · intro p q hpq hp1 hp2
        obtain ⟨hlexq, hpreq⟩ := hpq
        obtain ⟨tl, htl⟩ := hpreq
        have hmq : matchImgAt (text.data.drop p) = some q.length := by
          rw [← htl]
          exact matchImgAt_of_imgLex hlexq tl
        obtain ⟨f, hfmem, hf1, hf2⟩ := scanFrom_complete text.data 0 0 p q.length (by omega) hmq
        have hfpred : (fun e => decide (e.1 ≤ offset) && decide (offset ≤ e.1 + e.2.length)) f
            = true := by
          simp only [Bool.and_eq_true, decide_eq_true_eq]
          exact ⟨by omega, by omega⟩
        have := find_min_of_pairwise (scanFrom_pairwise text.data 0 0) hfind f hfmem hfpred
        omega
  · intro hnone p q hpq hcontain
    obtain ⟨hp1, hp2⟩ := hcontain
    unfold findImgElementAtPosition at hnone
    cases hfind : (scanFrom text.data 0 0).find?
        (fun e => decide (e.1 ≤ offset) && decide (offset ≤ e.1 + e.2.length)) with
    | some e => rw [hfind] at hnone; cases hnone
    | none =>
      have hall := List.find?_eq_none.mp hfind
      obtain ⟨hlexq, hpreq⟩ := hpq
      obtain ⟨tl, htl⟩ := hpreq
      have hmq : matchImgAt (text.data.drop p) = some q.length := by
        rw [← htl]
        exact matchImgAt_of_imgLex hlexq tl
      obtain ⟨f, hfmem, hf1, hf2⟩ := scanFrom_complete text.data 0 0 p q.length (by omega) hmq
      have hnp := hall f hfmem
      simp only [Bool.and_eq_true, decide_eq_true_eq, not_and] at hnp
      exact hnp (by omega) (by omega)

theorem findImgElementAtPosition_spec_witness :
    ∃ s, ImgMatchAt "<img x>".data s "<img x>".data ∧ s ≤ 2 ∧
      2 ≤ s + "<img x>".data.length ∧
      ∀ p q, ImgMatchAt "<img x>".data p q → p ≤ 2 → 2 ≤ p + q.length → s ≤ p :=
  (findImgElementAtPosition_spec "<img x>" 2).1 "<img x>" (by decide)

/-! ### Claim theorems: rewrite idempotence (C5) -/

theorem matchWsEq_append_none {t : List Char} (ht : matchWsEq t = none) :
    ∀ (mid : List Char), matchWsEq (mid ++ t) =
      (matchWsEq mid).map (fun p => (p.1, p.2 ++ t)) := by
  intro mid
  induction mid with
  | nil => simp [matchWsEq, ht]
  | cons c cs ih =>
    by_cases hw : isWs c
    · rcases h2 : matchWsEq cs with - | p <;> simp [matchWsEq, hw, ih, h2]
    · by_cases he : c.toNat = 61 <;> simp [matchWsEq, hw, he]

theorem matchWsQuote_append_none {t : List Char} (ht : matchWsQuote t = none) :
    ∀ (mid : List Char), matchWsQuote (mid ++ t) =
      (matchWsQuote mid).map (fun p => (p.1, p.2 ++ t)) := by
  intro mid
  induction mid with
  | nil => simp [matchWsQuote, ht]
  | cons c cs ih =>
    by_cases hw : isWs c
    · rcases h2 : matchWsQuote cs with - | p <;> simp [matchWsQuote, hw, ih, h2]
    · by_cases he : isQuote c <;> simp [matchWsQuote, hw, he]

theorem matchValueClose_isSome_of_quote {t : List Char} (hq : ∃ q ∈ t, isQuote q = true) :
    ∀ (mid : List Char), ∃ n v, matchValueClose (mid ++ t) = some (n, v) := by
  have base : ∃ n v, matchValueClose t = some (n, v) := by
    obtain ⟨q, hmem, hqq⟩ := hq
    induction t with
    | nil => cases hmem
    | cons c cs ih =>
      by_cases hc : isQuote c
      · exact ⟨1, [], by simp [matchValueClose, hc]⟩
      · rcases List.mem_cons.mp hmem with rfl | hmem'
        · exact absurd hqq (by simp [hc])
        · obtain ⟨n, v, hnv⟩ := ih hmem'
          exact ⟨n + 1, c :: v, by simp [matchValueClose, hc, hnv]⟩
  intro mid
  induction mid with
  | nil => simpa using base
  | cons c cs ih =>
    by_cases hc : isQuote c
    · exact ⟨1, [], by simp [matchValueClose, hc]⟩
    · obtain ⟨n, v, hnv⟩ := ih
      exact ⟨n + 1, c :: v, by simp [matchValueClose, hc, hnv]⟩

theorem stripCI_suffix : ∀ {ps l r : List Char}, stripCI ps l = some r → r <:+ l := by
  intro ps
  induction ps with
  | nil =>
    intro l r h
    simp only [stripCI, Option.some.injEq] at h
    exact h ▸ List.suffix_refl l
  | cons p ps ih =>
    intro l r h
    cases l with
    | nil => exact absurd h (by simp [stripCI])
    | cons c cs =>
      by_cases hc : charCI p c
      · rw [show stripCI (p :: ps) (c :: cs) = stripCI ps cs from by simp [stripCI, hc]] at h
        exact (ih h).trans (List.suffix_cons c cs)
      · exact absurd h (by simp [stripCI, hc])

theorem matchWsEq_suffix : ∀ {l : List Char} {n : Nat} {r : List Char},
    matchWsEq l = some (n, r) → r <:+ l
  | [], _, _, h => by cases h
  | c :: cs, n, r, h => by
    by_cases hw : isWs c
    · simp only [matchWsEq, hw, if_true] at h
      rcases h2 : matchWsEq cs with - | p
      · rw [h2] at h; cases h
      · rw [h2] at h
        simp only [Option.map_some', Option.some.injEq, Prod.mk.injEq] at h
        obtain ⟨-, hr⟩ := h
        obtain ⟨n', r'⟩ := p
        exact hr ▸ (matchWsEq_suffix h2).trans (List.suffix_cons c cs)
    · by_cases he : c.toNat = 61
      · simp only [matchWsEq, hw, Bool.false_eq_true, if_false, he, if_true,
          Option.some.injEq, Prod.mk.injEq] at h
        obtain ⟨-, hr⟩ := h
        exact hr ▸ List.suffix_cons c cs
      · simp [matchWsEq, hw, he] at h

theorem matchWsQuote_has_quote : ∀ {l : List Char} {n : Nat} {r : List Char},
    matchWsQuote l = some (n, r) → ∃ q ∈ l, isQuote q = true
  | [], _, _, h => by cases h
  | c :: cs, n, r, h => by
    by_cases hw : isWs c
    · simp only [matchWsQuote, hw, if_true] at h
      rcases h2 : matchWsQuote cs with - | p
      · rw [h2] at h; cases h
      · obtain ⟨n', r'⟩ := p
        obtain ⟨q, hq, hqq⟩ := matchWsQuote_has_quote h2
        exact ⟨q, List.mem_cons_of_mem c hq, hqq⟩
    · by_cases hq : isQuote c
      · exact ⟨c, by simp, hq⟩
      · simp [matchWsQuote, hw, hq] at h

theorem matchAttrAt_alt_head {ae : Bool} {t : List Char} {n : Nat} {v : List Char}
    (h : matchAttrAt altName ae t = some (n, v)) :
    ∃ c t', t = c :: t' ∧ charCI 'a' c = true := by
  cases t with
  | nil => rw [matchAttrAt_nil] at h; cases h
  | cons c t' =>
    refine ⟨c, t', rfl, ?_⟩
    by_cases hc : charCI 'a' c
    · exact hc
    · rw [show matchAttrAt altName ae (c :: t') = none from
        matchAttrAt_head_fail_alt (by simpa using hc) t' ae] at h
      cases h

theorem matchAttrAt_has_quote {name : List Char} {ae : Bool} {t : List Char} {n : Nat}
    {v : List Char} (h : matchAttrAt name ae t = some (n, v)) :
    ∃ q ∈ t, isQuote q = true := by
  unfold matchAttrAt at h
  split at h
  · exact absurd h (by simp)
  · rename_i r1 hs
    split at h
    · exact absurd h (by simp)
    · rename_i p2 n2 r2 hwe
      split at h
      · exact absurd h (by simp)
      · rename_i p3 n3 r3 hwq
        obtain ⟨q, hq, hqq⟩ := matchWsQuote_has_quote hwq
        have hr1 : r1 <:+ t := stripCI_suffix hs
        have hr2 : r2 <:+ r1 := matchWsEq_suffix hwe
        exact ⟨q, hr1.subset (hr2.subset hq), hqq⟩

theorem charCI_false_of {p c : Char} (h1 : c.toNat ≠ p.toNat) (h2 : c.toNat + 32 ≠ p.toNat) :
    charCI p c = false := by
  rw [Bool.eq_false_iff]
  intro hc
  rcases charCI_cases hc with h | h
  · exact h1 h
  · exact h2 h

theorem head_blocks {c : Char} (hl : charCI 'l' c = false) (ht : charCI 't' c = false)
    (hw : isWs c = false) (he : ¬ c.toNat = 61) (hq : isQuote c = false) (xs : List Char) :
    stripCI ['l', 't'] (c :: xs) = none ∧ stripCI ['t'] (c :: xs) = none ∧
    matchWsEq (c :: xs) = none ∧ matchWsQuote (c :: xs) = none := by
  refine ⟨by simp [stripCI, hl], by simp [stripCI, ht], ?_, ?_⟩
  · simp [matchWsEq, hw, he]
  · simp [matchWsQuote, hw, hq]

theorem isWs_false_of_num {c : Char} (h : c.toNat = 97 ∨ c.toNat = 65 ∨ c.toNat = 62) :
    isWs c = false := by
  rw [Bool.eq_false_iff]
  intro hw
  simp only [isWs, Bool.or_eq_true, decide_eq_true_eq, Bool.and_eq_true] at hw
  omega

theorem isQuote_false_of_num {c : Char} (h : c.toNat = 97 ∨ c.toNat = 65 ∨ c.toNat = 62) :
    isQuote c = false := by
  rw [Bool.eq_false_iff]
  intro hq
  simp only [isQuote, Bool.or_eq_true, decide_eq_true_eq] at hq
  omega

theorem head_a_blocks {c : Char} (hc : charCI 'a' c = true) (xs : List Char) :
    stripCI ['l', 't'] (c :: xs) = none ∧ stripCI ['t'] (c :: xs) = none ∧
    matchWsEq (c :: xs) = none ∧ matchWsQuote (c :: xs) = none := by
  have h0 := charCI_cases hc
  rw [show ('a').toNat = 97 from by decide] at h0
  have hnum : c.toNat = 97 ∨ c.toNat = 65 ∨ c.toNat = 62 := by omega
  refine head_blocks ?_ ?_ ?_ ?_ ?_ xs
  · exact charCI_false_of (by rw [show ('l').toNat = 108 from by decide]; omega)
      (by rw [show ('l').toNat = 108 from by decide]; omega)
  · exact charCI_false_of (by rw [show ('t').toNat = 116 from by decide]; omega)
      (by rw [show ('t').toNat = 116 from by decide]; omega)
  · exact isWs_false_of_num hnum
  · omega
  · exact isQuote_false_of_num hnum

theorem head_gt_blocks {c : Char} (hc : c.toNat = 62) (xs : List Char) :
    stripCI ['l', 't'] (c :: xs) = none ∧ stripCI ['t'] (c :: xs) = none ∧
    matchWsEq (c :: xs) = none ∧ matchWsQuote (c :: xs) = none := by
  have hnum : c.toNat = 97 ∨ c.toNat = 65 ∨ c.toNat = 62 := by omega
  refine head_blocks ?_ ?_ ?_ ?_ ?_ xs
  · exact charCI_false_of (by rw [show ('l').toNat = 108 from by decide]; omega)
      (by rw [show ('l').toNat = 108 from by decide]; omega)
  · exact charCI_false_of (by rw [show ('t').toNat = 116 from by decide]; omega)
      (by rw [show ('t').toNat = 116 from by decide]; omega)
  · exact isWs_false_of_num hnum
  · omega
  · exact isQuote_false_of_num hnum

theorem head_space_alt_blocks (xs : List Char) :
    stripCI ['l', 't'] (' ' :: 'a' :: xs) = none ∧
    stripCI ['t'] (' ' :: 'a' :: xs) = none ∧
    matchWsEq (' ' :: 'a' :: xs) = none ∧ matchWsQuote (' ' :: 'a' :: xs) = none := by
  have hb := head_a_blocks (show charCI 'a' 'a' = true from by decide) xs
  refine ⟨?_, ?_, ?_, ?_⟩
  · simp [stripCI, show charCI 'l' ' ' = false from by decide]
  · simp [stripCI, show charCI 't' ' ' = false from by decide]
  · rw [show (' ' :: 'a' :: xs : List Char) = [' '] ++ ('a' :: xs) from rfl,
      matchWsEq_append_none hb.2.2.1]
    rfl
  · rw [show (' ' :: 'a' :: xs : List Char) = [' '] ++ ('a' :: xs) from rfl,
      matchWsQuote_append_none hb.2.2.2]
    rfl

theorem matchAttrAt_cross {mid t₁ t₂ : List Char}
    (hm : mid ≠ [])
    (h1we : matchWsEq t₁ = none) (h1wq : matchWsQuote t₁ = none)
    (h2lt : stripCI ['l', 't'] t₂ = none) (h2t : stripCI ['t'] t₂ = none)
    (h2we : matchWsEq t₂ = none) (h2wq : matchWsQuote t₂ = none)
    (hval : (∃ q ∈ t₁, isQuote q = true) ∨ matchAltOpen (mid ++ t₁) = none)
    (hfail : matchAttrAt altName true (mid ++ t₁) = none) :
    matchAttrAt altName true (mid ++ t₂) = none := by
  rcases mid with - | ⟨m1, mid1⟩
  · exact absurd rfl hm
  rcases mid1 with - | ⟨m2, mid2⟩
  · by_cases hc : charCI 'a' m1
    · simp [matchAttrAt, altName, stripCI, hc, h2lt]
    · simp [matchAttrAt, altName, stripCI, hc]
  rcases mid2 with - | ⟨m3, mrest⟩
  · by_cases hc : charCI 'a' m1
    · by_cases hc2 : charCI 'l' m2
      · simp [matchAttrAt, altName, stripCI, hc, hc2, h2t]
      · simp [matchAttrAt, altName, stripCI, hc, hc2]
    · simp [matchAttrAt, altName, stripCI, hc]
  by_cases hc1 : charCI 'a' m1
  case neg => simp [matchAttrAt, altName, stripCI, hc1]
  by_cases hc2 : charCI 'l' m2
  case neg => simp [matchAttrAt, altName, stripCI, hc1, hc2]
  by_cases hc3 : charCI 't' m3
  case neg => simp [matchAttrAt, altName, stripCI, hc1, hc2, hc3]
  have hstrip : ∀ t : List Char,
      stripCI altName (m1 :: m2 :: m3 :: (mrest ++ t)) = some (mrest ++ t) := by
    intro t
    simp [altName, stripCI, hc1, hc2, hc3]
  rcases hwe : matchWsEq mrest with - | ⟨n2, r2⟩
  · have hwe2 : matchWsEq (mrest ++ t₂) = none := by
      rw [matchWsEq_append_none h2we, hwe]
      rfl
    show matchAttrAt altName true (m1 :: m2 :: m3 :: (mrest ++ t₂)) = none
    simp [matchAttrAt, hstrip, hwe2]
  · have hwe2' : matchWsEq (mrest ++ t₂) = some (n2, r2 ++ t₂) := by
      rw [matchWsEq_append_none h2we, hwe]
      rfl
    have hwe1' : matchWsEq (mrest ++ t₁) = some (n2, r2 ++ t₁) := by
      rw [matchWsEq_append_none h1we, hwe]
      rfl
    rcases hwq : matchWsQuote r2 with - | ⟨n3, r3⟩
    · have hwq2' : matchWsQuote (r2 ++ t₂) = none := by
        rw [matchWsQuote_append_none h2wq, hwq]
        rfl
      show matchAttrAt altName true (m1 :: m2 :: m3 :: (mrest ++ t₂)) = none
      simp [matchAttrAt, hstrip, hwe2', hwq2']
    · exfalso
      have hwq1' : matchWsQuote (r2 ++ t₁) = some (n3, r3 ++ t₁) := by
        rw [matchWsQuote_append_none h1wq, hwq]
        rfl
      have hfail' : matchAttrAt altName true (m1 :: m2 :: m3 :: (mrest ++ t₁)) = none := hfail
      rcases hval with hqex | hopen
      · obtain ⟨nv, vv, hv⟩ := matchValueClose_isSome_of_quote hqex r3
        have hcontra : matchAttrAt altName true (m1 :: m2 :: m3 :: (mrest ++ t₁)) =
            some (altName.length + n2 + n3 + nv, vv) := by
          simp [matchAttrAt, hstrip, hwe1', hwq1', hv]
        rw [hfail'] at hcontra
        cases hcontra
      · have hopen' : matchAltOpen (m1 :: m2 :: m3 :: (mrest ++ t₁)) = none := hopen
        have hcontra : matchAltOpen (m1 :: m2 :: m3 :: (mrest ++ t₁)) = some (r3 ++ t₁) := by
          simp [matchAltOpen, hstrip, hwe1', hwq1']
        rw [hopen'] at hcontra
        cases hcontra

theorem altRepl_shape (V : String) (suf : List Char) :
    altReplacement V ++ suf = 'a' :: 'l' :: 't' :: '=' :: dq :: (V.data ++ dq :: suf) := by
  simp [altReplacement]

theorem computeNewTag_idem_hasAlt {old V : String}
    (hq : ∀ c ∈ V.data, isQuote c = false)
    (hd : ∀ c ∈ V.data, c.toNat ≠ 36)
    {s n : Nat} {v : List Char}
    (hfind : findAttr altName true old.data = some (s, n, v)) :
    computeNewTag (computeNewTag old V) V = computeNewTag old V := by
  obtain ⟨hat, hbefore⟩ := findAttr_some_iff.mp hfind
  have hslen : s ≤ old.data.length := by
    by_contra hgt
    push_neg at hgt
    rw [List.drop_eq_nil_of_le (le_of_lt hgt), matchAttrAt_nil] at hat
    cases hat
  have hprelen : (old.data.take s).length = s := by rw [List.length_take]; omega
  have hnew : computeNewTag old V =
      String.mk (old.data.take s ++ altReplacement V ++ old.data.drop (s + n)) := by
    simp only [computeNewTag, hfind]
    rw [getSubstitution_id (altReplacement_no_dollar hd)]
  set pre := old.data.take s with hpre
  set suf := old.data.drop (s + n) with hsuf
  set newd := pre ++ altReplacement V ++ suf with hnewd
  have hmatch_s : matchAttrAt altName true (newd.drop s) = some (6 + V.data.length, V.data) := by
    have hds : newd.drop s = altReplacement V ++ suf := by
      rw [hnewd, List.append_assoc, ← hprelen, List.drop_left]
    rw [hds, altRepl_shape]
    exact matchAttrAt_altRepl V.data suf hq
  have hbefore_new : ∀ p, p < s → matchAttrAt altName true (newd.drop p) = none := by
    intro p hp
    have hmid : newd.drop p = pre.drop p ++ (altReplacement V ++ suf) := by
      rw [hnewd, List.append_assoc, List.drop_append_eq_append_drop,
        Nat.sub_eq_zero_of_le (by omega : p ≤ pre.length), List.drop_zero]
    have hold_decomp : old.data.drop p = pre.drop p ++ old.data.drop s := by
      conv_lhs => rw [← List.take_append_drop s old.data]
      rw [List.drop_append_eq_append_drop,
        Nat.sub_eq_zero_of_le (by rw [hprelen]; omega), List.drop_zero]
    have hfail := hbefore p hp
    rw [hold_decomp] at hfail
    obtain ⟨ch, t', ht_eq, hch⟩ := matchAttrAt_alt_head hat
    have hquote := matchAttrAt_has_quote hat
    have hb1 := head_a_blocks hch t'
    have hb2 := head_a_blocks (show charCI 'a' 'a' = true from by decide)
      ('l' :: 't' :: '=' :: dq :: (V.data ++ dq :: suf))
    have hmidne : pre.drop p ≠ [] := by
      intro hnil
      have := congrArg List.length hnil
      rw [List.length_drop, hprelen] at this
      simp at this
      omega
    rw [hmid, altRepl_shape]
    rw [ht_eq] at hfail hquote
    exact matchAttrAt_cross hmidne hb1.2.2.1 hb1.2.2.2
      hb2.1 hb2.2.1 hb2.2.2.1 hb2.2.2.2 (Or.inl hquote) hfail
  have hfind_new : findAttr altName true newd = some (s, 6 + V.data.length, V.data) :=
    findAttr_some_iff.mpr ⟨hmatch_s, hbefore_new⟩
  rw [hnew]
  have hdm : (String.mk newd).data = newd := rfl
  simp only [computeNewTag, hdm, hfind_new]
  rw [getSubstitution_id (altReplacement_no_dollar hd)]
  have htake : newd.take s = pre := by
    rw [hnewd, List.append_assoc, ← hprelen, List.take_left]
  have hdropend : newd.drop (s + (6 + V.data.length)) = suf := by
    rw [hnewd]
    have hlen2 : (pre ++ altReplacement V).length = s + (6 + V.data.length) := by
      simp only [List.length_append, hprelen, altReplacement, List.length_cons]
      simp
      omega
    rw [← hlen2, List.drop_left]
  rw [htake, hdropend]

theorem altAppendRepl_decomp (V : String) :
    altAppendReplacement V =
      ' ' :: ('a' :: 'l' :: 't' :: '=' :: dq :: (V.data ++ dq :: ['>'])) := rfl

theorem computeNewTag_idem_noAlt {old V : String}
    (hq : ∀ c ∈ V.data, isQuote c = false)
    (hd : ∀ c ∈ V.data, c.toNat ≠ 36)
    (hA : findAttr altName true old.data = none)
    (hopen : ∀ p, matchAltOpen (old.data.drop p) = none) :
    computeNewTag (computeNewTag old V) V = computeNewTag old V := by
  cases hlast : old.data.getLast? with
  | none =>
    have hsame : computeNewTag old V = old := by
      simp only [computeNewTag, hA, hlast]
    rw [hsame, hsame]
  | some c =>
    by_cases hgt : c.toNat = 62
    case neg =>
      have hsame : computeNewTag old V = old := by
        simp only [computeNewTag, hA, hlast, if_neg hgt]
      rw [hsame, hsame]
    case pos =>
      obtain ⟨front, hfront⟩ := List.getLast?_eq_some_iff.mp hlast
      have hnew : computeNewTag old V = String.mk (front ++ altAppendReplacement V) := by
        simp only [computeNewTag, hA, hlast, if_pos hgt]
        rw [getSubstitution_id (altAppendReplacement_no_dollar hd), hfront,
          List.dropLast_concat]
      set newd := front ++ altAppendReplacement V with hnewd
      have hsplit2 : newd = (front ++ [' ']) ++
          ('a' :: 'l' :: 't' :: '=' :: dq :: (V.data ++ dq :: ['>'])) := by
        rw [hnewd, altAppendRepl_decomp]
        simp
      have hfl1 : (front ++ [' ']).length = front.length + 1 := by simp
      have hdrop_s : newd.drop (front.length + 1) =
          'a' :: 'l' :: 't' :: '=' :: dq :: (V.data ++ dq :: ['>']) := by
        rw [hsplit2, ← hfl1, List.drop_left]
      have hmatch_s : matchAttrAt altName true (newd.drop (front.length + 1)) =
          some (6 + V.data.length, V.data) := by
        rw [hdrop_s]
        exact matchAttrAt_altRepl V.data ['>'] hq
      have hbefore_new : ∀ p, p < front.length + 1 →
          matchAttrAt altName true (newd.drop p) = none := by
        intro p hp
        by_cases hpf : p = front.length
        · subst hpf
          have hdf : newd.drop front.length =
              ' ' :: ('a' :: 'l' :: 't' :: '=' :: dq :: (V.data ++ dq :: ['>'])) := by
            rw [hnewd, altAppendRepl_decomp, List.drop_left]
          rw [hdf]
          exact matchAttrAt_head_fail_alt (by decide) _ _
        · have hplt : p < front.length := by omega
          have hmid : newd.drop p = front.drop p ++
              (' ' :: ('a' :: 'l' :: 't' :: '=' :: dq :: (V.data ++ dq :: ['>']))) := by
            rw [hnewd, List.drop_append_eq_append_drop,
              Nat.sub_eq_zero_of_le (by omega : p ≤ front.length), List.drop_zero,
              altAppendRepl_decomp]
          have hold : old.data.drop p = front.drop p ++ [c] := by
            rw [hfront, List.drop_append_eq_append_drop,
              Nat.sub_eq_zero_of_le (by omega : p ≤ front.length), List.drop_zero]
          have hfail : matchAttrAt altName true (old.data.drop p) = none :=
            findAttr_none_iff.mp hA p
          rw [hold] at hfail
          have hopen' := hopen p
          rw [hold] at hopen'
          have hmidne : front.drop p ≠ [] := by
            intro hnil
            have := congrArg List.length hnil
            rw [List.length_drop] at this
            simp at this
            omega
          have hb1 := head_gt_blocks hgt ([] : List Char)
          have hb2 := head_space_alt_blocks ('l' :: 't' :: '=' :: dq :: (V.data ++ dq :: ['>']))
          rw [hmid]
          exact matchAttrAt_cross hmidne hb1.2.2.1 hb1.2.2.2
            hb2.1 hb2.2.1 hb2.2.2.1 hb2.2.2.2 (Or.inr hopen') hfail
      have hfind_new : findAttr altName true newd =
          some (front.length + 1, 6 + V.data.length, V.data) :=
        findAttr_some_iff.mpr ⟨hmatch_s, hbefore_new⟩
      rw [hnew]
      have hdm : (String.mk newd).data = newd := rfl
      simp only [computeNewTag, hdm, hfind_new]
      rw [getSubstitution_id (altReplacement_no_dollar hd)]
      have hsplit3 : newd = ((front ++ [' ']) ++ altReplacement V) ++ ['>'] := by
        rw [hsplit2]
        simp [altReplacement]
      have htake : newd.take (front.length + 1) = front ++ [' '] := by
        rw [hsplit2, ← hfl1, List.take_left]
      have hdropend : newd.drop (front.length + 1 + (6 + V.data.length)) = ['>'] := by
        have hlen3 : ((front ++ [' ']) ++ altReplacement V).length =
            front.length + 1 + (6 + V.data.length) := by
          simp only [List.length_append, hfl1, altReplacement, List.length_cons]
          simp
          omega
        rw [hsplit3, ← hlen3, List.drop_left]
      rw [htake, hdropend]
      refine congrArg String.mk ?_
      rw [hsplit3]

theorem computeNewTag_idem {old V : String}
    (hq : ∀ c ∈ V.data, isQuote c = false)
    (hd : ∀ c ∈ V.data, c.toNat ≠ 36)
    (hcond : (findAttr altName true old.data).isSome = true ∨
      ∀ p, matchAltOpen (old.data.drop p) = none) :
    computeNewTag (computeNewTag old V) V = computeNewTag old V := by
  cases hfind : findAttr altName true old.data with
  | some t =>
    obtain ⟨s, n, v⟩ := t
    exact computeNewTag_idem_hasAlt hq hd hfind
  | none =>
    rcases hcond with hsome | hopen
    · rw [hfind] at hsome
      simp at hsome
    · exact computeNewTag_idem_noAlt hq hd hfind hopen

/-- C5 (counterexample): a second rewrite with the same value can change
the text again when the value contains a quote.  With `V = a"b` on
`<img alt="x">`, the first rewrite yields `<img alt="a"b">`; rewriting
that tag again with the same `V` matches only `alt="a"` and produces
`<img alt="a"b"b">` — a further text change, so rewrite is not
idempotent as claimed for every value. -/
theorem insertAltText_not_idempotent_cex :
    insertAltText "<img alt=\"x\">" "<img alt=\"x\">" "a\"b" =
      some ⟨"<img alt=\"a\"b\">", 0, 13⟩ ∧
    applyEdit "<img alt=\"x\">"
        (insertAltText "<img alt=\"x\">" "<img alt=\"x\">" "a\"b") =
      "<img alt=\"a\"b\">" ∧
    insertAltText "<img alt=\"a\"b\">" "<img alt=\"a\"b\">" "a\"b" =
      some ⟨"<img alt=\"a\"b\"b\">", 0, 15⟩ ∧
    applyEdit "<img alt=\"a\"b\">"
        (insertAltText "<img alt=\"a\"b\">" "<img alt=\"a\"b\">" "a\"b") =
      "<img alt=\"a\"b\"b\">" ∧
    "<img alt=\"a\"b\"b\">" ≠ "<img alt=\"a\"b\">" := by
  refine ⟨by rfl, by rfl, by rfl, by rfl, by decide⟩

/-- C5 (amended): the rewrite is idempotent provided the new alt value
contains no quote and no dollar character, and the original tag either
already carries a complete `alt` attribute or contains no unterminated
`alt=`-quote opener: rewriting once, embedding the new tag in the
document, and rewriting the embedded tag again with the same value
succeeds and leaves the document unchanged. -/
theorem insertAltText_idempotent (T old V : String)
    (hocc : old.data <:+: T.data)
    (hq : ∀ c ∈ V.data, isQuote c = false)
    (hd : ∀ c ∈ V.data, c.toNat ≠ 36)
    (hcond : (findAttr altName true old.data).isSome = true ∨
      ∀ p, matchAltOpen (old.data.drop p) = none) :
    ∃ r1 r2 : RewriteResult,
      insertAltText T old V = some r1 ∧
      insertAltText (applyRewrite T r1) r1.newTagText V = some r2 ∧
      applyRewrite (applyRewrite T r1) r2 = applyRewrite T r1 := by
  obtain ⟨i, hi⟩ := strIndexOf_of_infix hocc
  set new := computeNewTag old V with hnewdef
  have hr1 : insertAltText T old V = some ⟨new, i, i + old.data.length⟩ := by
    unfold insertAltText
    rw [hi]
  set T' := applyRewrite T ⟨new, i, i + old.data.length⟩ with hT'
  have hoccnew : new.data <:+: T'.data :=
    ⟨T.data.take i, T.data.drop (i + old.data.length), rfl⟩
  obtain ⟨i2, hi2⟩ := strIndexOf_of_infix hoccnew
  have hidem : computeNewTag new V = new := computeNewTag_idem hq hd hcond
  refine ⟨⟨new, i, i + old.data.length⟩,
    ⟨computeNewTag new V, i2, i2 + new.data.length⟩, hr1, ?_, ?_⟩
  · show insertAltText T' new V = _
    unfold insertAltText
    rw [hi2]
  · obtain ⟨hpre2, -⟩ := strIndexOf_some hi2
    show String.mk (T'.data.take i2 ++ (computeNewTag new V).data ++
      T'.data.drop (i2 + new.data.length)) = T'
    rw [hidem, splice_self hpre2]

theorem insertAltText_idempotent_witness :
    ("<img alt=\"x\">".data <:+: "<p><img alt=\"x\"></p>".data) ∧
    ∃ r1 r2 : RewriteResult,
      insertAltText "<p><img alt=\"x\"></p>" "<img alt=\"x\">" "ok" = some r1 ∧
      insertAltText (applyRewrite "<p><img alt=\"x\"></p>" r1) r1.newTagText "ok" = some r2 ∧
      applyRewrite (applyRewrite "<p><img alt=\"x\"></p>" r1) r2 =
        applyRewrite "<p><img alt=\"x\"></p>" r1 :=
  ⟨by decide, insertAltText_idempotent "<p><img alt=\"x\"></p>" "<img alt=\"x\">" "ok"
    (by decide) (by decide) (by decide) (Or.inl (by decide))⟩

end ImageDescriptor
